import Mathlib

/-!
Shallow embedding of the ESPHome dashboard polling coordinator
(`homeassistant/components/esphome/dashboard.py`) and of the consuming
update entity (`homeassistant/components/esphome/update.py`), together with
proofs of the specification claims about them.

The pure parts (`_async_update_data`'s indexing, `get_device`, the update
entity's `available` and `latest_version` properties) are direct
translations.  The coalescing gate `ensure_data` is embedded as a
small-step transition system: a cooperative event loop runs each coroutine
atomically between suspension points, so every scheduler event advances one
task from one suspension point of `ensure_data` to the next, following the
source line by line and the documented semantics of `asyncio.Lock`
(FIFO waiters, fast acquire only when unlocked with an empty queue).
-/

namespace ESPHome

/-- A configured device as reported by the dashboard API.  Only the fields
this component interprets are modelled: `name` (the dict key used by
`_async_update_data`) and `current_version` (read by the update entity). -/
structure ConfiguredDevice where
  name : String
  current_version : String
  deriving DecidableEq, Repr

/-- A Python dict with string keys, as an insertion-ordered association
list with unique keys: inserting an existing key overwrites in place,
inserting a new key appends. -/
abbrev Snapshot := List (String × ConfiguredDevice)

/-- Insertion into a Python dict: overwrite in place when the key exists,
otherwise append at the end. -/
def dictSet (d : Snapshot) (k : String) (v : ConfiguredDevice) : Snapshot :=
  match d with
  | [] => [(k, v)]
  | (k₀, v₀) :: rest => if k₀ == k then (k, v) :: rest else (k₀, v₀) :: dictSet rest k v

/-- Lookup in a Python dict (`dict.get`, returning `None` on a missing
key). -/
def dictGet (d : Snapshot) (k : String) : Option ConfiguredDevice :=
  match d with
  | [] => none
  | (k₀, v₀) :: rest => if k₀ == k then some v₀ else dictGet rest k

/-- Success path of `ESPHomeDashboard._async_update_data`
(dashboard.py line 89): the dict comprehension over the fetched device
list, keyed by device name.  A later device with the same name overwrites
an earlier one. -/
def async_update_data (configured : List ConfiguredDevice) : Snapshot :=
  configured.foldl (fun d dev => dictSet d dev.name dev) []

/-- Python truthiness of the coordinator's `data` attribute: `None` and the
empty dict are falsy, a nonempty dict is truthy.  This is the test used by
`if self.data:` (line 71) and `if not self.data:` (line 94). -/
def truthy : Option Snapshot → Bool
  | none => false
  | some d => !d.isEmpty

/-- The slice of `device_info` that this component reads. -/
structure DeviceInfo where
  name : Option String
  deriving DecidableEq, Repr

/-- The slice of `RuntimeEntryData` that this component reads:
`device_info` is `None` until the device has connected. -/
structure RuntimeEntryData where
  device_info : Option DeviceInfo
  deriving DecidableEq, Repr

/-- Identity of a failed Python `assert` statement inside `get_device`. -/
inductive AssertionError where
  | device_info_missing
  | name_missing
  deriving DecidableEq, Repr

/-- `ESPHomeDashboard.get_device` (dashboard.py lines 91-101).  `data` is
the coordinator's stored snapshot (`self.data`); a Python `assert` whose
condition is falsy is modelled as an `Except.error` outcome. -/
def get_device (data : Option Snapshot) (entry_data : RuntimeEntryData) :
    Except AssertionError (Option ConfiguredDevice) :=
  match data with
  | none => Except.ok none
  | some d =>
    if d.isEmpty then Except.ok none
    else
      match entry_data.device_info with
      | none => Except.error AssertionError.device_info_missing
      | some info =>
        match info.name with
        | none => Except.error AssertionError.name_missing
        | some nm => Except.ok (dictGet d nm)

/-- Entry data of a connected device whose reported name is `nm`. -/
def entryWithName (nm : String) : RuntimeEntryData := ⟨some ⟨some nm⟩⟩

namespace ESPHomeUpdateEntity

/-- `ESPHomeUpdateEntity.available` (update.py lines 84-90):
`super().available and self.coordinator.get_device(...) is not None`, with
Python short-circuit `and`.  `super().available` comes from the external
`CoordinatorEntity` base class and is passed in as `sup`. -/
def available (sup : Bool) (data : Option Snapshot) (entry_data : RuntimeEntryData) :
    Except AssertionError Bool :=
  if sup then (get_device data entry_data).map (fun r => r.isSome)
  else Except.ok false

/-- `ESPHomeUpdateEntity.latest_version` (update.py lines 98-104): returns
`None` when `get_device` returned `None`, else the device's
`current_version`. -/
def latest_version (data : Option Snapshot) (entry_data : RuntimeEntryData) :
    Except AssertionError (Option String) :=
  (get_device data entry_data).map (fun r => r.map (fun dev => dev.current_version))

end ESPHomeUpdateEntity

/-- Program counter of one logical task calling `ensure_data`
(dashboard.py lines 69-84), between suspension points of the cooperative
event loop: `ready` before the call runs, `waiting gen` suspended in
`acquire` on lock object `gen`, `fetching gen` holding lock `gen` while its
refresh is in flight, `done` returned. -/
inductive PC where
  | ready
  | waiting (gen : Nat)
  | fetching (gen : Nat)
  | done
  deriving DecidableEq, Repr

/-- An `asyncio.Lock` object: whether it is currently held, and the FIFO
queue of tasks suspended in its `acquire`. -/
structure LockObj where
  locked : Bool
  waiters : List Nat
  deriving DecidableEq, Repr

/-- Global state of one `ESPHomeDashboard` instance together with the tasks
calling `ensure_data`.  Lock objects are identified by their creation index
into `locks` (old lock objects stay reachable by the tasks queued on them
even after the attribute is reset); `first_fetch_lock` holds the index of
the object currently stored in `_first_fetch_lock`, or `none` for Python
`None`; `pcs` holds each task's program counter; `fetchCount` counts the
refresh invocations triggered by `ensure_data`. -/
structure SysState where
  data : Option Snapshot
  first_fetch_lock : Option Nat
  locks : List LockObj
  pcs : List PC
  fetchCount : Nat
  deriving DecidableEq, Repr

/-- Outcome of one gate-triggered refresh: the fetched device list, or a
fetch failure. -/
inductive FetchResult where
  | success (configured : List ConfiguredDevice)
  | failure
  deriving DecidableEq, Repr

/-- Scheduler events: `start t` runs task `t` from the top of `ensure_data`
to its first suspension point (or to completion); `fetchDone t r` completes
task `t`'s in-flight refresh with outcome `r` and resumes it; `wake t`
resumes task `t` after the lock it waits on was released and it is first in
that lock's queue. -/
inductive Ev where
  | start (t : Nat)
  | fetchDone (t : Nat) (r : FetchResult)
  | wake (t : Nat)
  deriving DecidableEq, Repr

/-- Modelled from the spec: the refresh machinery of the host framework
(`DataUpdateCoordinator.async_request_refresh`, which is not under `src/`).
Per the spec, `refreshNow` invokes the external fetch; on success it
atomically publishes the snapshot built by `_async_update_data`; on fetch
failure it retains the previous snapshot and reports the error without
raising into `ensure_data`. -/
def applyRefresh (data : Option Snapshot) (r : FetchResult) : Option Snapshot :=
  match r with
  | FetchResult.success configured => some (async_update_data configured)
  | FetchResult.failure => data

/-- Modelled from the spec: `currentSnapshot()` reads the coordinator's
stored `data` attribute, or absent when no successful refresh has ever
completed. -/
def currentSnapshot (s : SysState) : Option Snapshot := s.data

/-- One atomic scheduler step.  A coroutine runs atomically between two
suspension points, so each event advances one task from one suspension
point of `ensure_data` to the next.  Invalid events (task not at the
required program point, dangling lock index, waiter not first in the queue
or the lock still held) yield `none`. -/
def step (s : SysState) : Ev → Option SysState
  | Ev.start t =>
    match s.pcs[t]? with
    | some PC.ready =>
      if truthy s.data then
        -- lines 71-72: `if self.data: return`
        some { s with pcs := s.pcs.set t PC.done }
      else
        match s.first_fetch_lock with
        | some g =>
          -- lines 74-77: `async with self._first_fetch_lock: return`
          match s.locks[g]? with
          | some lk =>
            if lk.locked || !lk.waiters.isEmpty then
              -- `acquire` suspends: enqueue at the tail of the FIFO queue
              some { s with
                locks := s.locks.set g { lk with waiters := lk.waiters ++ [t] },
                pcs := s.pcs.set t (PC.waiting g) }
            else
              -- `acquire` fast path, then `return` releases immediately
              some { s with pcs := s.pcs.set t PC.done }
          | none => none
        | none =>
          -- lines 79-82: create the lock, acquire it (fast path on a fresh
          -- lock), and start the refresh; no suspension in between
          some { s with
            locks := s.locks ++ [{ locked := true, waiters := [] }],
            first_fetch_lock := some s.locks.length,
            pcs := s.pcs.set t (PC.fetching s.locks.length),
            fetchCount := s.fetchCount + 1 }
    | _ => none
  | Ev.fetchDone t r =>
    match s.pcs[t]? with
    | some (PC.fetching g) =>
      -- lines 82-84: the awaited refresh completes (success or failure),
      -- the `async with` exits releasing the lock, and
      -- `self._first_fetch_lock = None` runs, all without a further await
      match s.locks[g]? with
      | some lk =>
        some { s with
          data := applyRefresh s.data r,
          locks := s.locks.set g { lk with locked := false },
          first_fetch_lock := none,
          pcs := s.pcs.set t PC.done }
      | none => none
    | _ => none
  | Ev.wake t =>
    match s.pcs[t]? with
    | some (PC.waiting g) =>
      -- lines 75-77: the woken waiter re-acquires the released lock,
      -- returns, and releases it again, letting the next waiter wake
      match s.locks[g]? with
      | some lk =>
        if !lk.locked && lk.waiters.head? == some t then
          some { s with
            locks := s.locks.set g { lk with waiters := lk.waiters.tail },
            pcs := s.pcs.set t PC.done }
        else none
      | none => none
    | _ => none

/-- Run a list of scheduler events; fails if any event is invalid. -/
def run (s : SysState) : List Ev → Option SysState
  | [] => some s
  | e :: es => (step s e).bind (fun s₁ => run s₁ es)

/-- Initial state: `data` is `None`, `_first_fetch_lock` is `None`, no lock
object exists yet, and `n` tasks are about to call `ensure_data`. -/
def init (n : Nat) : SysState :=
  { data := none, first_fetch_lock := none, locks := [],
    pcs := List.replicate n PC.ready, fetchCount := 0 }

/-- Recognizer for `Ev.start` events. -/
def isStart : Ev → Bool
  | Ev.start _ => true
  | _ => false

/-- Recognizer for `Ev.fetchDone` events. -/
def isFetchDone : Ev → Bool
  | Ev.fetchDone _ _ => true
  | _ => false

/-- Recognizer for program counters of tasks whose refresh is in flight. -/
def isFetchingPC : PC → Bool
  | PC.fetching _ => true
  | _ => false

/-- Number of gate-triggered fetches currently in flight. -/
def countFetching (s : SysState) : Nat := (s.pcs.filter isFetchingPC).length

/-- Schedules in which every `ensure_data` call is issued before the first
gate-triggered fetch completes: after the first `fetchDone` event no
further `start` event occurs. -/
def startsFirst : List Ev → Bool
  | [] => true
  | Ev.fetchDone _ _ :: rest => rest.all (fun e => !isStart e)
  | _ :: rest => startsFirst rest

/-- Every task has returned from `ensure_data`. -/
def allDone (s : SysState) : Prop := ∀ (t : Nat) (pc : PC), s.pcs[t]? = some pc → pc = PC.done

/-! ### Generic lookup lemmas -/

theorem lookup_set {α : Type} {l : List α} {t u : Nat} {v w : α} :
    (l.set t v)[u]? = some w ↔
      (t = u ∧ t < l.length ∧ w = v) ∨ (t ≠ u ∧ l[u]? = some w) := by
  rw [List.getElem?_set]
  by_cases h : t = u
  · subst h
    by_cases hl : t < l.length <;> simp [hl, eq_comm]
  · simp [h]

theorem lookup_concat {α : Type} {l : List α} {u : Nat} {x w : α} :
    (l ++ [x])[u]? = some w ↔
      (u < l.length ∧ l[u]? = some w) ∨ (u = l.length ∧ w = x) := by
  rw [List.getElem?_append]
  by_cases h : u < l.length
  · simp [h, Nat.ne_of_lt h]
  · have hge : l.length ≤ u := Nat.le_of_not_lt h
    rcases Nat.eq_or_lt_of_le hge with heq | hlt
    · subst heq
      simp [h, eq_comm]
    · have : u - l.length ≠ 0 := Nat.sub_ne_zero_of_lt hlt
      rcases Nat.exists_eq_succ_of_ne_zero this with ⟨m, hm⟩
      simp [h, hm, Nat.ne_of_gt hlt, List.getElem?_cons_succ]

theorem lt_length_of_lookup {α : Type} {l : List α} {u : Nat} {w : α}
    (h : l[u]? = some w) : u < l.length :=
  (List.getElem?_eq_some.mp h).1

/-! ### Reachability invariant of the gate -/

/-- Structural invariant of every reachable `SysState`: a lock object is
held exactly when some task is fetching under it, the fetching task is the
one the gate attribute points at, queued tasks are exactly the tasks
suspended in `acquire` on that lock, queues have no duplicates, and at most
one task is fetching at any time. -/
structure Inv (s : SysState) : Prop where
  lockedIffFetcher : ∀ (g : Nat) (lk : LockObj), s.locks[g]? = some lk →
    (lk.locked = true ↔ ∃ t : Nat, s.pcs[t]? = some (PC.fetching g))
  fetcherGate : ∀ (t g : Nat), s.pcs[t]? = some (PC.fetching g) →
    s.first_fetch_lock = some g
  gateLock : ∀ g : Nat, s.first_fetch_lock = some g →
    ∃ lk : LockObj, s.locks[g]? = some lk
  gateFetcher : ∀ g : Nat, s.first_fetch_lock = some g →
    ∃ t : Nat, s.pcs[t]? = some (PC.fetching g)
  waiterQueued : ∀ (t g : Nat), s.pcs[t]? = some (PC.waiting g) →
    ∃ lk : LockObj, s.locks[g]? = some lk ∧ t ∈ lk.waiters
  queuedWaiter : ∀ (g : Nat) (lk : LockObj) (t : Nat), s.locks[g]? = some lk →
    t ∈ lk.waiters → s.pcs[t]? = some (PC.waiting g)
  noDupWaiters : ∀ (g : Nat) (lk : LockObj), s.locks[g]? = some lk →
    lk.waiters.Nodup
  uniqueFetcher : ∀ (t₁ g₁ t₂ g₂ : Nat), s.pcs[t₁]? = some (PC.fetching g₁) →
    s.pcs[t₂]? = some (PC.fetching g₂) → t₁ = t₂

theorem replicate_ready_lookup {n t : Nat} {pc : PC}
    (h : (List.replicate n PC.ready)[t]? = some pc) : pc = PC.ready := by
  rw [List.getElem?_replicate] at h
  split at h
  · exact (Option.some.injEq _ _ ▸ h).symm
  · exact Option.noConfusion h

theorem inv_init (n : Nat) : Inv (init n) := by
  constructor
  · intro g lk hg
    simp [init] at hg
  · intro t g hpc
    exact absurd (replicate_ready_lookup hpc) (by simp)
  · intro g hg
    simp [init] at hg
  · intro g hg
    simp [init] at hg
  · intro t g hpc
    exact absurd (replicate_ready_lookup hpc) (by simp)
  · intro g lk t hg
    simp [init] at hg
  · intro g lk hg
    simp [init] at hg
  · intro t₁ g₁ t₂ g₂ h₁ h₂
    exact absurd (replicate_ready_lookup h₁) (by simp)

/-! ### Inversion lemmas for the step function -/

theorem step_start_cases {s s₂ : SysState} {t : Nat}
    (h : step s (Ev.start t) = some s₂) :
    s.pcs[t]? = some PC.ready
    ∧ ((truthy s.data = true ∧ s₂ = { s with pcs := s.pcs.set t PC.done })
      ∨ (truthy s.data = false
          ∧ ((∃ (g : Nat) (lk : LockObj), s.first_fetch_lock = some g
                ∧ s.locks[g]? = some lk
                ∧ (((lk.locked || !lk.waiters.isEmpty) = true
                      ∧ s₂ = { s with
                          locks := s.locks.set g { lk with waiters := lk.waiters ++ [t] },
                          pcs := s.pcs.set t (PC.waiting g) })
                  ∨ ((lk.locked || !lk.waiters.isEmpty) = false
                      ∧ s₂ = { s with pcs := s.pcs.set t PC.done })))
            ∨ (s.first_fetch_lock = none
                ∧ s₂ = { s with
                    locks := s.locks ++ [{ locked := true, waiters := [] }],
                    first_fetch_lock := some s.locks.length,
                    pcs := s.pcs.set t (PC.fetching s.locks.length),
                    fetchCount := s.fetchCount + 1 })))) := by
  simp only [step] at h
  cases hpc : s.pcs[t]? with
  | none => simp [hpc] at h
  | some pc =>
    cases pc with
    | ready =>
      refine ⟨rfl, ?_⟩
      simp only [hpc] at h
      cases htr : truthy s.data with
      | true =>
        rw [htr] at h
        simp only [if_true] at h
        exact Or.inl ⟨rfl, ((Option.some.injEq _ _).mp h).symm⟩
      | false =>
        rw [htr] at h
        simp only [Bool.false_eq_true, if_false] at h
        refine Or.inr ⟨rfl, ?_⟩
        cases hlock : s.first_fetch_lock with
        | none =>
          simp only [hlock] at h
          exact Or.inr ⟨rfl, ((Option.some.injEq _ _).mp h).symm⟩
        | some g =>
          simp only [hlock] at h
          cases hlk : s.locks[g]? with
          | none => simp [hlk] at h
          | some lk =>
            simp only [hlk] at h
            refine Or.inl ⟨g, lk, rfl, hlk, ?_⟩
            cases hcond : (lk.locked || !lk.waiters.isEmpty) with
            | true =>
              rw [hcond] at h
              simp only [if_true] at h
              exact Or.inl ⟨rfl, ((Option.some.injEq _ _).mp h).symm⟩
            | false =>
              rw [hcond] at h
              simp only [Bool.false_eq_true, if_false] at h
              exact Or.inr ⟨rfl, ((Option.some.injEq _ _).mp h).symm⟩
    | waiting g => simp [hpc] at h
    | fetching g => simp [hpc] at h
    | done => simp [hpc] at h

theorem step_fetchDone_cases {s s₂ : SysState} {t : Nat} {r : FetchResult}
    (h : step s (Ev.fetchDone t r) = some s₂) :
    ∃ (g : Nat) (lk : LockObj), s.pcs[t]? = some (PC.fetching g)
      ∧ s.locks[g]? = some lk
      ∧ s₂ = { s with
          data := applyRefresh s.data r,
          locks := s.locks.set g { lk with locked := false },
          first_fetch_lock := none,
          pcs := s.pcs.set t PC.done } := by
  simp only [step] at h
  cases hpc : s.pcs[t]? with
  | none => simp [hpc] at h
  | some pc =>
    cases pc with
    | ready => simp [hpc] at h
    | waiting g => simp [hpc] at h
    | done => simp [hpc] at h
    | fetching g =>
      simp only [hpc] at h
      cases hlk : s.locks[g]? with
      | none => simp [hlk] at h
      | some lk =>
        simp only [hlk] at h
        exact ⟨g, lk, rfl, hlk, ((Option.some.injEq _ _).mp h).symm⟩

theorem step_wake_cases {s s₂ : SysState} {t : Nat}
    (h : step s (Ev.wake t) = some s₂) :
    ∃ (g : Nat) (lk : LockObj), s.pcs[t]? = some (PC.waiting g)
      ∧ s.locks[g]? = some lk
      ∧ lk.locked = false ∧ lk.waiters.head? = some t
      ∧ s₂ = { s with
          locks := s.locks.set g { lk with waiters := lk.waiters.tail },
          pcs := s.pcs.set t PC.done } := by
  simp only [step] at h
  cases hpc : s.pcs[t]? with
  | none => simp [hpc] at h
  | some pc =>
    cases pc with
    | ready => simp [hpc] at h
    | fetching g => simp [hpc] at h
    | done => simp [hpc] at h
    | waiting g =>
      simp only [hpc] at h
      cases hlk : s.locks[g]? with
      | none => simp [hlk] at h
      | some lk =>
        simp only [hlk] at h
        cases hcond : (!lk.locked && lk.waiters.head? == some t) with
        | false => rw [hcond] at h; simp at h
        | true =>
          rw [hcond] at h
          simp only [if_true] at h
          rw [Bool.and_eq_true, Bool.not_eq_true', beq_iff_eq] at hcond
          exact ⟨g, lk, rfl, hlk, hcond.1, hcond.2, ((Option.some.injEq _ _).mp h).symm⟩

theorem lookup_set_other {l : List PC} {t u : Nat} {v w : PC} (hvw : w ≠ v) :
    (l.set t v)[u]? = some w ↔ (u ≠ t ∧ l[u]? = some w) := by
  constructor
  · intro h
    rcases lookup_set.mp h with ⟨_, _, hv2⟩ | ⟨hne, hold⟩
    · exact absurd hv2 hvw
    · exact ⟨fun e => hne e.symm, hold⟩
  · intro h
    rw [List.getElem?_set_ne (fun e => h.1 e.symm)]
    exact h.2

theorem lookup_set_index {α : Type} {l : List α} {t u : Nat} {v : α} (ht : t < l.length) :
    (l.set t v)[u]? = if t = u then some v else l[u]? := by
  by_cases h : t = u
  · subst h
    simp [List.getElem?_set_self ht]
  · simp [List.getElem?_set_ne h, h]

/-- Preservation of the invariant when a task at the top of `ensure_data`
returns without touching any state (truthy data, or the unreachable fast
path of `acquire` on an existing unlocked lock with no queue). -/
theorem inv_set_done_of_ready {s : SysState} {t : Nat} (hinv : Inv s)
    (hpc : s.pcs[t]? = some PC.ready) :
    Inv { s with pcs := s.pcs.set t PC.done } := by
  have hfetch : ∀ (u gg : Nat), (s.pcs.set t PC.done)[u]? = some (PC.fetching gg) ↔
      s.pcs[u]? = some (PC.fetching gg) := by
    intro u gg
    rw [lookup_set_other (by simp)]
    constructor
    · exact fun h => h.2
    · intro h
      refine ⟨fun he => ?_, h⟩
      subst he
      rw [hpc] at h
      simp at h
  have hwait : ∀ (u gg : Nat), (s.pcs.set t PC.done)[u]? = some (PC.waiting gg) ↔
      s.pcs[u]? = some (PC.waiting gg) := by
    intro u gg
    rw [lookup_set_other (by simp)]
    constructor
    · exact fun h => h.2
    · intro h
      refine ⟨fun he => ?_, h⟩
      subst he
      rw [hpc] at h
      simp at h
  constructor
  · intro g lk hg
    have hbase := hinv.lockedIffFetcher g lk hg
    constructor
    · intro hl
      obtain ⟨u, hu⟩ := hbase.mp hl
      exact ⟨u, (hfetch u g).mpr hu⟩
    · intro hex
      obtain ⟨u, hu⟩ := hex
      exact hbase.mpr ⟨u, (hfetch u g).mp hu⟩
  · intro u g hu
    exact hinv.fetcherGate u g ((hfetch u g).mp hu)
  · exact hinv.gateLock
  · intro g hg
    obtain ⟨u, hu⟩ := hinv.gateFetcher g hg
    exact ⟨u, (hfetch u g).mpr hu⟩
  · intro u g hu
    exact hinv.waiterQueued u g ((hwait u g).mp hu)
  · intro g lk u hg hu
    exact (hwait u g).mpr (hinv.queuedWaiter g lk u hg hu)
  · exact hinv.noDupWaiters
  · intro t₁ g₁ t₂ g₂ h₁ h₂
    exact hinv.uniqueFetcher t₁ g₁ t₂ g₂ ((hfetch t₁ g₁).mp h₁) ((hfetch t₂ g₂).mp h₂)

/-- Preservation of the invariant when a task finds the gate lock present
and enqueues itself on its FIFO queue. -/
theorem inv_join {s : SysState} {t g : Nat} {lk : LockObj} (hinv : Inv s)
    (hpc : s.pcs[t]? = some PC.ready)
    (hgate : s.first_fetch_lock = some g)
    (hlk : s.locks[g]? = some lk) :
    Inv { s with
      locks := s.locks.set g { lk with waiters := lk.waiters ++ [t] },
      pcs := s.pcs.set t (PC.waiting g) } := by
  have hglen : g < s.locks.length := lt_length_of_lookup hlk
  have htlen : t < s.pcs.length := lt_length_of_lookup hpc
  have hnotmem : t ∉ lk.waiters := by
    intro hm
    have := hinv.queuedWaiter g lk t hlk hm
    rw [hpc] at this
    simp at this
  have hfetch : ∀ (u gg : Nat),
      (s.pcs.set t (PC.waiting g))[u]? = some (PC.fetching gg) ↔
        s.pcs[u]? = some (PC.fetching gg) := by
    intro u gg
    rw [lookup_set_other (by simp)]
    constructor
    · exact fun h => h.2
    · intro h
      refine ⟨fun he => ?_, h⟩
      subst he
      rw [hpc] at h
      simp at h
  have hwait : ∀ (u gg : Nat),
      (s.pcs.set t (PC.waiting g))[u]? = some (PC.waiting gg) ↔
        ((u = t ∧ gg = g) ∨ (u ≠ t ∧ s.pcs[u]? = some (PC.waiting gg))) := by
    intro u gg
    constructor
    · intro h
      rcases lookup_set.mp h with ⟨heq, _, hv⟩ | ⟨hne, hold⟩
      · exact Or.inl ⟨heq.symm, (PC.waiting.injEq _ _).mp hv⟩
      · exact Or.inr ⟨fun e => hne e.symm, hold⟩
    · intro h
      rcases h with ⟨he, hg2⟩ | ⟨hne, hold⟩
      · subst he
        subst hg2
        exact List.getElem?_set_self htlen
      · rw [List.getElem?_set_ne (fun e => hne e.symm)]
        exact hold
  constructor
  · intro gg lk₃ hgg
    rw [lookup_set_index hglen] at hgg
    by_cases hgeq : g = gg
    · subst hgeq
      rw [if_pos rfl] at hgg
      have hlk₃ : lk₃ = { lk with waiters := lk.waiters ++ [t] } :=
        ((Option.some.injEq _ _).mp hgg).symm
      subst hlk₃
      have hbase := hinv.lockedIffFetcher g lk hlk
      constructor
      · intro hl
        obtain ⟨u, hu⟩ := hbase.mp hl
        exact ⟨u, (hfetch u g).mpr hu⟩
      · intro hex
        obtain ⟨u, hu⟩ := hex
        exact hbase.mpr ⟨u, (hfetch u g).mp hu⟩
    · rw [if_neg hgeq] at hgg
      have hbase := hinv.lockedIffFetcher gg lk₃ hgg
      constructor
      · intro hl
        obtain ⟨u, hu⟩ := hbase.mp hl
        exact ⟨u, (hfetch u gg).mpr hu⟩
      · intro hex
        obtain ⟨u, hu⟩ := hex
        exact hbase.mpr ⟨u, (hfetch u gg).mp hu⟩
  · intro u gg hu
    exact hinv.fetcherGate u gg ((hfetch u gg).mp hu)
  · intro gg hgg
    obtain ⟨lk₄, hold⟩ := hinv.gateLock gg hgg
    by_cases hgeq : g = gg
    · exact ⟨{ lk with waiters := lk.waiters ++ [t] }, by
        rw [lookup_set_index hglen, if_pos hgeq]⟩
    · exact ⟨lk₄, by rw [lookup_set_index hglen, if_neg hgeq]; exact hold⟩
  · intro gg hgg
    obtain ⟨u, hu⟩ := hinv.gateFetcher gg hgg
    exact ⟨u, (hfetch u gg).mpr hu⟩
  · intro u gg hu
    rcases (hwait u gg).mp hu with ⟨he, hg2⟩ | ⟨hne, hold⟩
    · refine ⟨{ lk with waiters := lk.waiters ++ [t] }, ?_, ?_⟩
      · rw [hg2, lookup_set_index hglen, if_pos rfl]
      · rw [he]
        simp
    · obtain ⟨lk₄, h₄, hm₄⟩ := hinv.waiterQueued u gg hold
      by_cases hgeq : g = gg
      · have hlk₄ : lk₄ = lk := by
          rw [← hgeq, hlk] at h₄
          exact ((Option.some.injEq _ _).mp h₄).symm
        refine ⟨{ lk with waiters := lk.waiters ++ [t] }, ?_, ?_⟩
        · rw [← hgeq, lookup_set_index hglen, if_pos rfl]
        · exact List.mem_append_left _ (hlk₄ ▸ hm₄)
      · exact ⟨lk₄, by rw [lookup_set_index hglen, if_neg hgeq]; exact h₄, hm₄⟩
  · intro gg lk₃ u hgg hm
    rw [lookup_set_index hglen] at hgg
    by_cases hgeq : g = gg
    · subst hgeq
      rw [if_pos rfl] at hgg
      have hlk₃ : lk₃ = { lk with waiters := lk.waiters ++ [t] } :=
        ((Option.some.injEq _ _).mp hgg).symm
      subst hlk₃
      rcases List.mem_append.mp hm with hm₀ | hm₁
      · have hold := hinv.queuedWaiter g lk u hlk hm₀
        have hne : u ≠ t := by
          intro he
          subst he
          rw [hpc] at hold
          simp at hold
        exact (hwait u g).mpr (Or.inr ⟨hne, hold⟩)
      · have : u = t := by simpa using hm₁
        subst this
        exact (hwait u g).mpr (Or.inl ⟨rfl, rfl⟩)
    · rw [if_neg hgeq] at hgg
      have hold := hinv.queuedWaiter gg lk₃ u hgg hm
      have hne : u ≠ t := by
        intro he
        subst he
        rw [hpc] at hold
        simp at hold
      exact (hwait u gg).mpr (Or.inr ⟨hne, hold⟩)
  · intro gg lk₃ hgg
    rw [lookup_set_index hglen] at hgg
    by_cases hgeq : g = gg
    · subst hgeq
      rw [if_pos rfl] at hgg
      have hlk₃ : lk₃ = { lk with waiters := lk.waiters ++ [t] } :=
        ((Option.some.injEq _ _).mp hgg).symm
      subst hlk₃
      have hnd := hinv.noDupWaiters g lk hlk
      rw [List.nodup_append]
      refine ⟨hnd, List.nodup_singleton t, ?_⟩
      rw [List.disjoint_singleton]
      exact hnotmem
    · rw [if_neg hgeq] at hgg
      exact hinv.noDupWaiters gg lk₃ hgg
  · intro t₁ g₁ t₂ g₂ h₁ h₂
    exact hinv.uniqueFetcher t₁ g₁ t₂ g₂ ((hfetch t₁ g₁).mp h₁) ((hfetch t₂ g₂).mp h₂)

/-- Preservation of the invariant when a task finds no gate lock and no
truthy data, creates the lock, acquires it and starts the refresh. -/
theorem inv_leader {s : SysState} {t : Nat} (hinv : Inv s)
    (hpc : s.pcs[t]? = some PC.ready)
    (hgate : s.first_fetch_lock = none) :
    Inv { s with
      locks := s.locks ++ [{ locked := true, waiters := [] }],
      first_fetch_lock := some s.locks.length,
      pcs := s.pcs.set t (PC.fetching s.locks.length),
      fetchCount := s.fetchCount + 1 } := by
  have htlen : t < s.pcs.length := lt_length_of_lookup hpc
  have hnof : ∀ (u gg : Nat), ¬ s.pcs[u]? = some (PC.fetching gg) := by
    intro u gg h
    have := hinv.fetcherGate u gg h
    rw [hgate] at this
    exact Option.noConfusion this
  have hfetch : ∀ (u gg : Nat),
      (s.pcs.set t (PC.fetching s.locks.length))[u]? = some (PC.fetching gg) ↔
        (u = t ∧ gg = s.locks.length) := by
    intro u gg
    constructor
    · intro h
      rcases lookup_set.mp h with ⟨heq, _, hv⟩ | ⟨_, hold⟩
      · exact ⟨heq.symm, (PC.fetching.injEq _ _).mp hv⟩
      · exact absurd hold (hnof u gg)
    · intro h
      rw [h.1, h.2]
      exact List.getElem?_set_self htlen
  have hwait : ∀ (u gg : Nat),
      (s.pcs.set t (PC.fetching s.locks.length))[u]? = some (PC.waiting gg) ↔
        s.pcs[u]? = some (PC.waiting gg) := by
    intro u gg
    rw [lookup_set_other (by simp)]
    constructor
    · exact fun h => h.2
    · intro h
      refine ⟨fun he => ?_, h⟩
      subst he
      rw [hpc] at h
      simp at h
  constructor
  · intro gg lk₃ hgg
    rcases lookup_concat.mp hgg with ⟨hlt, hold⟩ | ⟨heq, hv⟩
    · have hbase := hinv.lockedIffFetcher gg lk₃ hold
      constructor
      · intro hl
        obtain ⟨u, hu⟩ := hbase.mp hl
        exact absurd hu (hnof u gg)
      · intro hex
        obtain ⟨u, hu⟩ := hex
        obtain ⟨_, hgl⟩ := (hfetch u gg).mp hu
        exact absurd hgl (Nat.ne_of_lt hlt)
    · constructor
      · intro _
        exact ⟨t, (hfetch t gg).mpr ⟨rfl, heq⟩⟩
      · intro _
        rw [hv]
  · intro u gg hu
    obtain ⟨_, hgl⟩ := (hfetch u gg).mp hu
    rw [hgl]
  · intro gg hgg
    have hgl : gg = s.locks.length := ((Option.some.injEq _ _).mp hgg).symm
    refine ⟨{ locked := true, waiters := [] }, ?_⟩
    rw [hgl]
    exact List.getElem?_concat_length _ _
  · intro gg hgg
    have hgl : gg = s.locks.length := ((Option.some.injEq _ _).mp hgg).symm
    exact ⟨t, (hfetch t gg).mpr ⟨rfl, hgl⟩⟩
  · intro u gg hu
    obtain ⟨lk₄, hold, hm₄⟩ := hinv.waiterQueued u gg ((hwait u gg).mp hu)
    refine ⟨lk₄, ?_, hm₄⟩
    exact lookup_concat.mpr (Or.inl ⟨lt_length_of_lookup hold, hold⟩)
  · intro gg lk₃ u hgg hm
    rcases lookup_concat.mp hgg with ⟨_, hold⟩ | ⟨_, hv⟩
    · exact (hwait u gg).mpr (hinv.queuedWaiter gg lk₃ u hold hm)
    · rw [hv] at hm
      simp at hm
  · intro gg lk₃ hgg
    rcases lookup_concat.mp hgg with ⟨_, hold⟩ | ⟨_, hv⟩
    · exact hinv.noDupWaiters gg lk₃ hold
    · rw [hv]
      exact List.nodup_nil
  · intro t₁ g₁ t₂ g₂ h₁ h₂
    rw [((hfetch t₁ g₁).mp h₁).1, ((hfetch t₂ g₂).mp h₂).1]

/-- Preservation of the invariant when the leader's refresh completes:
data is published or retained, the lock is released, the gate attribute is
reset and the leader returns. -/
theorem inv_step_fetchDone {s s₂ : SysState} {t : Nat} {r : FetchResult} (hinv : Inv s)
    (h : step s (Ev.fetchDone t r) = some s₂) : Inv s₂ := by
  obtain ⟨g, lk, hpc, hlk, rfl⟩ := step_fetchDone_cases h
  have hglen : g < s.locks.length := lt_length_of_lookup hlk
  have hnof₂ : ∀ (u gg : Nat), ¬ (s.pcs.set t PC.done)[u]? = some (PC.fetching gg) := by
    intro u gg hu
    obtain ⟨hne, hold⟩ := (lookup_set_other (by simp)).mp hu
    exact hne (hinv.uniqueFetcher u gg t g hold hpc)
  have hwait : ∀ (u gg : Nat),
      (s.pcs.set t PC.done)[u]? = some (PC.waiting gg) ↔
        s.pcs[u]? = some (PC.waiting gg) := by
    intro u gg
    rw [lookup_set_other (by simp)]
    constructor
    · exact fun hh => hh.2
    · intro hh
      refine ⟨fun he => ?_, hh⟩
      subst he
      rw [hpc] at hh
      simp at hh
  constructor
  · intro gg lk₃ hgg
    rw [lookup_set_index hglen] at hgg
    by_cases hgeq : g = gg
    · rw [if_pos hgeq] at hgg
      have hlk₃ : lk₃ = { lk with locked := false } :=
        ((Option.some.injEq _ _).mp hgg).symm
      constructor
      · intro hl
        rw [hlk₃] at hl
        simp at hl
      · intro hex
        obtain ⟨u, hu⟩ := hex
        exact absurd hu (hnof₂ u gg)
    · rw [if_neg hgeq] at hgg
      have hbase := hinv.lockedIffFetcher gg lk₃ hgg
      constructor
      · intro hl
        obtain ⟨u, hu⟩ := hbase.mp hl
        have hut : u = t := hinv.uniqueFetcher u gg t g hu hpc
        rw [hut, hpc] at hu
        have : gg = g := ((PC.fetching.injEq _ _).mp ((Option.some.injEq _ _).mp hu)).symm
        exact absurd this.symm hgeq
      · intro hex
        obtain ⟨u, hu⟩ := hex
        exact absurd hu (hnof₂ u gg)
  · intro u gg hu
    exact absurd hu (hnof₂ u gg)
  · intro gg hgg
    exact Option.noConfusion hgg
  · intro gg hgg
    exact Option.noConfusion hgg
  · intro u gg hu
    obtain ⟨lk₄, hold, hm₄⟩ := hinv.waiterQueued u gg ((hwait u gg).mp hu)
    by_cases hgeq : g = gg
    · have hlk₄ : lk₄ = lk := by
        rw [← hgeq, hlk] at hold
        exact ((Option.some.injEq _ _).mp hold).symm
      refine ⟨{ lk with locked := false }, ?_, ?_⟩
      · rw [← hgeq, lookup_set_index hglen, if_pos rfl]
      · exact hlk₄ ▸ hm₄
    · exact ⟨lk₄, by rw [lookup_set_index hglen, if_neg hgeq]; exact hold, hm₄⟩
  · intro gg lk₃ u hgg hm
    rw [lookup_set_index hglen] at hgg
    by_cases hgeq : g = gg
    · rw [if_pos hgeq] at hgg
      have hlk₃ : lk₃ = { lk with locked := false } :=
        ((Option.some.injEq _ _).mp hgg).symm
      rw [hlk₃] at hm
      have hold := hinv.queuedWaiter g lk u hlk hm
      rw [← hgeq]
      exact (hwait u g).mpr hold
    · rw [if_neg hgeq] at hgg
      exact (hwait u gg).mpr (hinv.queuedWaiter gg lk₃ u hgg hm)
  · intro gg lk₃ hgg
    rw [lookup_set_index hglen] at hgg
    by_cases hgeq : g = gg
    · rw [if_pos hgeq] at hgg
      have hlk₃ : lk₃ = { lk with locked := false } :=
        ((Option.some.injEq _ _).mp hgg).symm
      rw [hlk₃]
      exact hinv.noDupWaiters g lk hlk
    · rw [if_neg hgeq] at hgg
      exact hinv.noDupWaiters gg lk₃ hgg
  · intro t₁ g₁ t₂ g₂ h₁ h₂
    exact absurd h₁ (hnof₂ t₁ g₁)

/-- Preservation of the invariant when a queued waiter is woken after the
lock was released: it acquires, returns and releases, leaving the queue
tail behind. -/
theorem inv_step_wake {s s₂ : SysState} {t : Nat} (hinv : Inv s)
    (h : step s (Ev.wake t) = some s₂) : Inv s₂ := by
  obtain ⟨g, lk, hpc, hlk, hunlocked, hhead, rfl⟩ := step_wake_cases h
  have hglen : g < s.locks.length := lt_length_of_lookup hlk
  obtain ⟨tail0, hws⟩ := List.head?_eq_some_iff.mp hhead
  have hnotmem : t ∉ lk.waiters.tail := by
    have hnd := hinv.noDupWaiters g lk hlk
    rw [hws] at hnd ⊢
    simp only [List.tail_cons]
    exact (List.nodup_cons.mp hnd).1
  have hfetch : ∀ (u gg : Nat),
      (s.pcs.set t PC.done)[u]? = some (PC.fetching gg) ↔
        s.pcs[u]? = some (PC.fetching gg) := by
    intro u gg
    rw [lookup_set_other (by simp)]
    constructor
    · exact fun hh => hh.2
    · intro hh
      refine ⟨fun he => ?_, hh⟩
      subst he
      rw [hpc] at hh
      simp at hh
  have hwait : ∀ (u gg : Nat),
      (s.pcs.set t PC.done)[u]? = some (PC.waiting gg) ↔
        (u ≠ t ∧ s.pcs[u]? = some (PC.waiting gg)) :=
    fun u gg => lookup_set_other (by simp)
  constructor
  · intro gg lk₃ hgg
    rw [lookup_set_index hglen] at hgg
    by_cases hgeq : g = gg
    · rw [if_pos hgeq] at hgg
      have hlk₃ : lk₃ = { lk with waiters := lk.waiters.tail } :=
        ((Option.some.injEq _ _).mp hgg).symm
      have hbase := hinv.lockedIffFetcher g lk hlk
      rw [hlk₃]
      rw [← hgeq]
      constructor
      · intro hl
        obtain ⟨u, hu⟩ := hbase.mp hl
        exact ⟨u, (hfetch u g).mpr hu⟩
      · intro hex
        obtain ⟨u, hu⟩ := hex
        exact hbase.mpr ⟨u, (hfetch u g).mp hu⟩
    · rw [if_neg hgeq] at hgg
      have hbase := hinv.lockedIffFetcher gg lk₃ hgg
      constructor
      · intro hl
        obtain ⟨u, hu⟩ := hbase.mp hl
        exact ⟨u, (hfetch u gg).mpr hu⟩
      · intro hex
        obtain ⟨u, hu⟩ := hex
        exact hbase.mpr ⟨u, (hfetch u gg).mp hu⟩
  · intro u gg hu
    exact hinv.fetcherGate u gg ((hfetch u gg).mp hu)
  · intro gg hgg
    obtain ⟨lk₄, hold⟩ := hinv.gateLock gg hgg
    by_cases hgeq : g = gg
    · exact ⟨{ lk with waiters := lk.waiters.tail }, by
        rw [lookup_set_index hglen, if_pos hgeq]⟩
    · exact ⟨lk₄, by rw [lookup_set_index hglen, if_neg hgeq]; exact hold⟩
  · intro gg hgg
    obtain ⟨u, hu⟩ := hinv.gateFetcher gg hgg
    exact ⟨u, (hfetch u gg).mpr hu⟩
  · intro u gg hu
    obtain ⟨hne, hold⟩ := (hwait u gg).mp hu
    obtain ⟨lk₄, h₄, hm₄⟩ := hinv.waiterQueued u gg hold
    by_cases hgeq : g = gg
    · have hlk₄ : lk₄ = lk := by
        rw [← hgeq, hlk] at h₄
        exact ((Option.some.injEq _ _).mp h₄).symm
      refine ⟨{ lk with waiters := lk.waiters.tail }, ?_, ?_⟩
      · rw [← hgeq, lookup_set_index hglen, if_pos rfl]
      · have hm₅ : u ∈ lk.waiters := hlk₄ ▸ hm₄
        rw [hws] at hm₅ ⊢
        simp only [List.tail_cons]
        rcases List.mem_cons.mp hm₅ with he | hmem
        · exact absurd he hne
        · exact hmem
    · exact ⟨lk₄, by rw [lookup_set_index hglen, if_neg hgeq]; exact h₄, hm₄⟩
  · intro gg lk₃ u hgg hm
    rw [lookup_set_index hglen] at hgg
    by_cases hgeq : g = gg
    · rw [if_pos hgeq] at hgg
      have hlk₃ : lk₃ = { lk with waiters := lk.waiters.tail } :=
        ((Option.some.injEq _ _).mp hgg).symm
      rw [hlk₃] at hm
      have hmem : u ∈ lk.waiters := by
        rw [hws]
        rw [hws] at hm
        simp only [List.tail_cons] at hm
        exact List.mem_cons_of_mem _ hm
      have hold := hinv.queuedWaiter g lk u hlk hmem
      have hne : u ≠ t := by
        intro he
        rw [hlk₃] at *
        subst he
        rw [hws] at hm
        simp only [List.tail_cons] at hm
        rw [hws] at hnotmem
        simp only [List.tail_cons] at hnotmem
        exact hnotmem hm
      rw [← hgeq]
      exact (hwait u g).mpr ⟨hne, hold⟩
    · rw [if_neg hgeq] at hgg
      have hold := hinv.queuedWaiter gg lk₃ u hgg hm
      have hne : u ≠ t := by
        intro he
        subst he
        rw [hpc] at hold
        have hgg2 : g = gg :=
          (PC.waiting.injEq _ _).mp ((Option.some.injEq _ _).mp hold)
        exact hgeq hgg2
      exact (hwait u gg).mpr ⟨hne, hold⟩
  · intro gg lk₃ hgg
    rw [lookup_set_index hglen] at hgg
    by_cases hgeq : g = gg
    · rw [if_pos hgeq] at hgg
      have hlk₃ : lk₃ = { lk with waiters := lk.waiters.tail } :=
        ((Option.some.injEq _ _).mp hgg).symm
      rw [hlk₃]
      have hnd := hinv.noDupWaiters g lk hlk
      rw [hws] at hnd
      rw [hws]
      simp only [List.tail_cons]
      exact (List.nodup_cons.mp hnd).2
    · rw [if_neg hgeq] at hgg
      exact hinv.noDupWaiters gg lk₃ hgg
  · intro t₁ g₁ t₂ g₂ h₁ h₂
    exact hinv.uniqueFetcher t₁ g₁ t₂ g₂ ((hfetch t₁ g₁).mp h₁) ((hfetch t₂ g₂).mp h₂)

/-- Preservation of the invariant by every valid scheduler step. -/
theorem inv_step {s s₂ : SysState} {e : Ev} (hinv : Inv s) (h : step s e = some s₂) :
    Inv s₂ := by
  cases e with
  | start t =>
    obtain ⟨hpc, hcases⟩ := step_start_cases h
    rcases hcases with ⟨_, rfl⟩ |
      ⟨_, ⟨g, lk, hgate, hlk, ⟨_, rfl⟩ | ⟨_, rfl⟩⟩ | ⟨hgate, rfl⟩⟩
    · exact inv_set_done_of_ready hinv hpc
    · exact inv_join hinv hpc hgate hlk
    · exact inv_set_done_of_ready hinv hpc
    · exact inv_leader hinv hpc hgate
  | fetchDone t r => exact inv_step_fetchDone hinv h
  | wake t => exact inv_step_wake hinv h

/-- Preservation of the invariant by every valid execution. -/
theorem inv_run {s s₂ : SysState} {es : List Ev} (hinv : Inv s)
    (h : run s es = some s₂) : Inv s₂ := by
  induction es generalizing s with
  | nil =>
    simp only [run, Option.some.injEq] at h
    rw [← h]
    exact hinv
  | cons e rest ih =>
    simp only [run] at h
    cases hstep : step s e with
    | none => rw [hstep] at h; exact Option.noConfusion h
    | some s₁ =>
      rw [hstep] at h
      simp only [Option.some_bind] at h
      exact ih (inv_step hinv hstep) h

/-! ### Execution decomposition and phase lemmas -/

theorem run_append (s : SysState) (as bs : List Ev) :
    run s (as ++ bs) = (run s as).bind (fun s₁ => run s₁ bs) := by
  induction as generalizing s with
  | nil => simp [run]
  | cons e rest ih =>
    simp only [List.cons_append, run]
    cases step s e with
    | none => simp
    | some s₁ => simp [ih]

/-- State predicate holding at every point before any gate-triggered fetch
has completed: no data has been published, every existing lock object is
still held, no `ensure_data` call has returned, and the fetch counter
matches the presence of the gate attribute. -/
def preFetch (s : SysState) : Prop :=
  s.data = none
  ∧ (∀ (g : Nat) (lk : LockObj), s.locks[g]? = some lk → lk.locked = true)
  ∧ (∀ t : Nat, ¬ s.pcs[t]? = some PC.done)
  ∧ s.fetchCount = (if s.first_fetch_lock.isSome then 1 else 0)

theorem preFetch_init (n : Nat) : preFetch (init n) := by
  refine ⟨rfl, ?_, ?_, rfl⟩
  · intro g lk hg
    simp [init] at hg
  · intro t h
    exact absurd (replicate_ready_lookup h) (by simp)

theorem preFetch_step {s s₂ : SysState} {e : Ev} (hfd : isFetchDone e = false)
    (hpre : preFetch s) (h : step s e = some s₂) : preFetch s₂ := by
  obtain ⟨hdata, hlocked, hnodone, hcount⟩ := hpre
  cases e with
  | fetchDone t r => simp [isFetchDone] at hfd
  | wake t =>
    obtain ⟨g, lk, hpc, hlk, hunlocked, _, rfl⟩ := step_wake_cases h
    have := hlocked g lk hlk
    rw [hunlocked] at this
    exact Bool.noConfusion this
  | start t =>
    obtain ⟨hpc, hcases⟩ := step_start_cases h
    rcases hcases with ⟨htr, rfl⟩ |
      ⟨htr, ⟨g, lk, hgate, hlk, ⟨hcond, rfl⟩ | ⟨hcond, rfl⟩⟩ | ⟨hgate, rfl⟩⟩
    · rw [hdata] at htr
      exact Bool.noConfusion htr
    · refine ⟨hdata, ?_, ?_, hcount⟩
      · intro gg lk₃ hgg
        rw [lookup_set_index (lt_length_of_lookup hlk)] at hgg
        by_cases hgeq : g = gg
        · rw [if_pos hgeq] at hgg
          have hlk₃ : lk₃ = { lk with waiters := lk.waiters ++ [t] } :=
            ((Option.some.injEq _ _).mp hgg).symm
          rw [hlk₃]
          exact hlocked g lk hlk
        · rw [if_neg hgeq] at hgg
          exact hlocked gg lk₃ hgg
      · intro u hu
        rcases lookup_set.mp hu with ⟨_, _, hv⟩ | ⟨_, hold⟩
        · exact PC.noConfusion hv
        · exact hnodone u hold
    · have := hlocked g lk hlk
      rw [this] at hcond
      exact Bool.noConfusion hcond
    · refine ⟨hdata, ?_, ?_, ?_⟩
      · intro gg lk₃ hgg
        rcases lookup_concat.mp hgg with ⟨_, hold⟩ | ⟨_, hv⟩
        · exact hlocked gg lk₃ hold
        · rw [hv]
      · intro u hu
        rcases lookup_set.mp hu with ⟨_, _, hv⟩ | ⟨_, hold⟩
        · exact PC.noConfusion hv
        · exact hnodone u hold
      · rw [hgate] at hcount
        simp only [Option.isSome_none, Bool.false_eq_true, if_false] at hcount
        simp [hcount]

theorem preFetch_run {s s₂ : SysState} {es : List Ev}
    (hall : es.all (fun e => !isFetchDone e) = true)
    (h : run s es = some s₂) (hpre : preFetch s) : preFetch s₂ := by
  induction es generalizing s with
  | nil =>
    simp only [run, Option.some.injEq] at h
    rw [← h]
    exact hpre
  | cons e rest ih =>
    rw [List.all_cons, Bool.and_eq_true] at hall
    simp only [run] at h
    cases hstep : step s e with
    | none => rw [hstep] at h; exact Option.noConfusion h
    | some s₁ =>
      rw [hstep] at h
      simp only [Option.some_bind] at h
      have hfd : isFetchDone e = false := by
        rcases hall with ⟨h1, _⟩
        rwa [Bool.not_eq_eq_eq_not, Bool.not_true] at h1
      exact ih hall.2 h (preFetch_step hfd hpre hstep)

theorem step_fetchCount_of_not_start {s s₂ : SysState} {e : Ev}
    (hns : isStart e = false) (h : step s e = some s₂) :
    s₂.fetchCount = s.fetchCount := by
  cases e with
  | start t => simp [isStart] at hns
  | fetchDone t r =>
    obtain ⟨g, lk, _, _, rfl⟩ := step_fetchDone_cases h
    rfl
  | wake t =>
    obtain ⟨g, lk, _, _, _, _, rfl⟩ := step_wake_cases h
    rfl

theorem run_fetchCount_of_no_start {s s₂ : SysState} {es : List Ev}
    (hns : es.all (fun e => !isStart e) = true)
    (h : run s es = some s₂) : s₂.fetchCount = s.fetchCount := by
  induction es generalizing s with
  | nil =>
    simp only [run, Option.some.injEq] at h
    rw [← h]
  | cons e rest ih =>
    rw [List.all_cons, Bool.and_eq_true] at hns
    simp only [run] at h
    cases hstep : step s e with
    | none => rw [hstep] at h; exact Option.noConfusion h
    | some s₁ =>
      rw [hstep] at h
      simp only [Option.some_bind] at h
      have he : isStart e = false := by
        rcases hns with ⟨h1, _⟩
        rwa [Bool.not_eq_eq_eq_not, Bool.not_true] at h1
      rw [ih hns.2 h, step_fetchCount_of_not_start he hstep]

theorem startsFirst_split {es : List Ev} (h : startsFirst es = true) :
    es.all (fun e => !isFetchDone e) = true
    ∨ ∃ (es₁ : List Ev) (t : Nat) (r : FetchResult) (es₂ : List Ev),
        es = es₁ ++ Ev.fetchDone t r :: es₂
        ∧ es₁.all (fun e => !isFetchDone e) = true
        ∧ es₂.all (fun e => !isStart e) = true := by
  induction es with
  | nil => exact Or.inl rfl
  | cons e rest ih =>
    cases e with
    | fetchDone t r =>
      right
      refine ⟨[], t, r, rest, rfl, rfl, ?_⟩
      simpa [startsFirst] using h
    | start t =>
      have h2 : startsFirst rest = true := by simpa [startsFirst] using h
      rcases ih h2 with hall | ⟨es₁, t0, r0, es₂, heq, h1, h2all⟩
      · exact Or.inl (by rw [List.all_cons, hall]; rfl)
      · right
        refine ⟨Ev.start t :: es₁, t0, r0, es₂, ?_, ?_, h2all⟩
        · rw [heq]
          rfl
        · rw [List.all_cons, h1]
          rfl
    | wake t =>
      have h2 : startsFirst rest = true := by simpa [startsFirst] using h
      rcases ih h2 with hall | ⟨es₁, t0, r0, es₂, heq, h1, h2all⟩
      · exact Or.inl (by rw [List.all_cons, hall]; rfl)
      · right
        refine ⟨Ev.wake t :: es₁, t0, r0, es₂, ?_, ?_, h2all⟩
        · rw [heq]
          rfl
        · rw [List.all_cons, h1]
          rfl

/-! ### At most one fetch in flight -/

theorem no_fetching_filter {l : List PC}
    (h : ∀ (u gg : Nat), ¬ l[u]? = some (PC.fetching gg)) :
    l.filter isFetchingPC = [] := by
  induction l with
  | nil => rfl
  | cons pc rest ih =>
    have hpc0 : isFetchingPC pc = false := by
      cases pc with
      | fetching g => exact absurd List.getElem?_cons_zero (h 0 g)
      | ready => rfl
      | waiting g => rfl
      | done => rfl
    rw [List.filter_cons_of_neg (by simp [hpc0])]
    apply ih
    intro u gg hu
    exact h (u + 1) gg (by simpa using hu)

theorem filter_fetching_le_one {l : List PC}
    (huniq : ∀ (i j gi gj : Nat), l[i]? = some (PC.fetching gi) →
      l[j]? = some (PC.fetching gj) → i = j) :
    (l.filter isFetchingPC).length ≤ 1 := by
  induction l with
  | nil => simp
  | cons pc rest ih =>
    cases hpc0 : isFetchingPC pc with
    | false =>
      rw [List.filter_cons_of_neg (by simp [hpc0])]
      apply ih
      intro i j gi gj hi hj
      have := huniq (i + 1) (j + 1) gi gj (by simpa using hi) (by simpa using hj)
      omega
    | true =>
      rw [List.filter_cons_of_pos (by simp [hpc0])]
      have hg0 : ∃ g0 : Nat, pc = PC.fetching g0 := by
        cases pc with
        | fetching g => exact ⟨g, rfl⟩
        | ready => exact Bool.noConfusion hpc0
        | waiting g => exact Bool.noConfusion hpc0
        | done => exact Bool.noConfusion hpc0
      obtain ⟨g0, rfl⟩ := hg0
      have hrest : rest.filter isFetchingPC = [] := by
        apply no_fetching_filter
        intro u gg hu
        have h0 : (PC.fetching g0 :: rest)[0]? = some (PC.fetching g0) :=
          List.getElem?_cons_zero
        have hs : (PC.fetching g0 :: rest)[u + 1]? = some (PC.fetching gg) := by
          simpa using hu
        have := huniq 0 (u + 1) g0 gg h0 hs
        omega
      rw [hrest]
      simp

/-- In every state satisfying the invariant (in particular every reachable
state) at most one gate-triggered fetch is in flight. -/
theorem countFetching_le_one {s : SysState} (hinv : Inv s) : countFetching s ≤ 1 := by
  unfold countFetching
  apply filter_fetching_le_one
  intro i j gi gj hi hj
  exact hinv.uniqueFetcher i gi j gj hi hj

/-! ### Progress and termination -/

/-- In every state satisfying the invariant, if some task has not yet
returned from `ensure_data` then some scheduler event is enabled: the
system never deadlocks. -/
theorem progress {s : SysState} (hinv : Inv s) {t₀ : Nat} {pc₀ : PC}
    (hp : s.pcs[t₀]? = some pc₀) (hnd : pc₀ ≠ PC.done) :
    ∃ (e : Ev) (s₃ : SysState), step s e = some s₃ := by
  cases pc₀ with
  | done => exact absurd rfl hnd
  | ready =>
    refine ⟨Ev.start t₀, ?_⟩
    simp only [step, hp]
    cases htr : truthy s.data with
    | true => exact ⟨_, if_pos rfl⟩
    | false =>
      simp only [Bool.false_eq_true, if_false]
      cases hfl : s.first_fetch_lock with
      | none => exact ⟨_, rfl⟩
      | some g =>
        obtain ⟨lk, hlk⟩ := hinv.gateLock g hfl
        simp only [hlk]
        cases hcond : (lk.locked || !lk.waiters.isEmpty) with
        | true => exact ⟨_, if_pos rfl⟩
        | false =>
          simp only [Bool.false_eq_true, if_false]
          exact ⟨_, rfl⟩
  | fetching g =>
    obtain ⟨lk, hlk⟩ := hinv.gateLock g (hinv.fetcherGate t₀ g hp)
    refine ⟨Ev.fetchDone t₀ FetchResult.failure, ?_⟩
    simp only [step, hp, hlk]
    exact ⟨_, rfl⟩
  | waiting g =>
    obtain ⟨lk, hlk, hmem⟩ := hinv.waiterQueued t₀ g hp
    cases hl : lk.locked with
    | true =>
      obtain ⟨u, hu⟩ := (hinv.lockedIffFetcher g lk hlk).mp hl
      obtain ⟨lk₂, hlk₂⟩ := hinv.gateLock g (hinv.fetcherGate u g hu)
      refine ⟨Ev.fetchDone u FetchResult.failure, ?_⟩
      simp only [step, hu, hlk₂]
      exact ⟨_, rfl⟩
    | false =>
      obtain ⟨h₀, hh⟩ : ∃ x : Nat, lk.waiters.head? = some x := by
        cases hw : lk.waiters with
        | nil =>
          rw [hw] at hmem
          exact absurd hmem (List.not_mem_nil t₀)
        | cons a as => exact ⟨a, rfl⟩
      obtain ⟨ys, hys⟩ := List.head?_eq_some_iff.mp hh
      have hqw := hinv.queuedWaiter g lk h₀ hlk (by rw [hys]; simp)
      refine ⟨Ev.wake h₀, ?_⟩
      simp only [step, hqw, hlk]
      have hcond : (!lk.locked && lk.waiters.head? == some h₀) = true := by
        rw [hl, hh]
        simp
      rw [hcond]
      exact ⟨_, rfl⟩

/-- Remaining work of one task: two steps for a task that has not started,
one for a suspended task, none for a finished one. -/
def pcWeight : PC → Nat
  | PC.ready => 2
  | PC.waiting _ => 1
  | PC.fetching _ => 1
  | PC.done => 0

/-- Total remaining work of the system; every scheduler event strictly
decreases it. -/
def sysMeasure (s : SysState) : Nat := (s.pcs.map pcWeight).sum

theorem sum_map_set_lt {l : List PC} {t : Nat} {pc v : PC}
    (hl : l[t]? = some pc) (hlt : pcWeight v < pcWeight pc) :
    ((l.set t v).map pcWeight).sum < (l.map pcWeight).sum := by
  induction l generalizing t with
  | nil => exact absurd hl (by simp)
  | cons hd rest ih =>
    cases t with
    | zero =>
      rw [List.getElem?_cons_zero] at hl
      have : hd = pc := (Option.some.injEq _ _).mp hl
      rw [this]
      simp only [List.set_cons_zero, List.map_cons, List.sum_cons]
      exact Nat.add_lt_add_right hlt _
    | succ t0 =>
      rw [List.getElem?_cons_succ] at hl
      simp only [List.set_cons_succ, List.map_cons, List.sum_cons]
      exact Nat.add_lt_add_left (ih hl) _

theorem step_measure_lt {s s₂ : SysState} {e : Ev} (h : step s e = some s₂) :
    sysMeasure s₂ < sysMeasure s := by
  cases e with
  | start t =>
    obtain ⟨hpc, hcases⟩ := step_start_cases h
    rcases hcases with ⟨_, rfl⟩ |
      ⟨_, ⟨g, lk, _, _, ⟨_, rfl⟩ | ⟨_, rfl⟩⟩ | ⟨_, rfl⟩⟩ <;>
      exact sum_map_set_lt hpc (by simp [pcWeight])
  | fetchDone t r =>
    obtain ⟨g, lk, hpc, _, rfl⟩ := step_fetchDone_cases h
    exact sum_map_set_lt hpc (by simp [pcWeight])
  | wake t =>
    obtain ⟨g, lk, hpc, _, _, _, rfl⟩ := step_wake_cases h
    exact sum_map_set_lt hpc (by simp [pcWeight])

theorem run_length_le {s s₂ : SysState} {es : List Ev}
    (h : run s es = some s₂) : es.length + sysMeasure s₂ ≤ sysMeasure s := by
  induction es generalizing s with
  | nil =>
    simp only [run, Option.some.injEq] at h
    rw [← h]
    simp
  | cons e rest ih =>
    simp only [run] at h
    cases hstep : step s e with
    | none => rw [hstep] at h; exact Option.noConfusion h
    | some s₁ =>
      rw [hstep] at h
      simp only [Option.some_bind] at h
      have h1 := ih h
      have h2 := step_measure_lt hstep
      simp only [List.length_cons]
      omega

theorem sysMeasure_init (n : Nat) : sysMeasure (init n) = 2 * n := by
  induction n with
  | zero => rfl
  | succ m ih =>
    simp only [sysMeasure, init, List.replicate_succ, List.map_cons, List.sum_cons,
      pcWeight] at ih ⊢
    omega

/-! ### Lemmas about dict indexing -/

theorem dictGet_dictSet (d : Snapshot) (k nm : String) (v : ConfiguredDevice) :
    dictGet (dictSet d k v) nm = if k == nm then some v else dictGet d nm := by
  induction d with
  | nil => simp [dictSet, dictGet]
  | cons hd rest ih =>
    obtain ⟨k₀, v₀⟩ := hd
    by_cases hk : k₀ = k
    · subst hk
      by_cases hn : k₀ = nm <;> simp [dictSet, dictGet, hn]
    · by_cases hn : k₀ = nm
      · subst hn
        have hkn : ¬ k = k₀ := fun h => hk h.symm
        simp [dictSet, dictGet, hk, hkn]
      · simp [dictSet, dictGet, hk, hn, ih]

theorem dictGet_foldl (l : List ConfiguredDevice) (acc : Snapshot) (nm : String) :
    dictGet (l.foldl (fun d dev => dictSet d dev.name dev) acc) nm =
      (l.reverse.find? (fun dev => dev.name == nm)).or (dictGet acc nm) := by
  induction l generalizing acc with
  | nil => simp
  | cons dev rest ih =>
    simp only [List.foldl_cons, List.reverse_cons, List.find?_append, ih, dictGet_dictSet]
    cases hfind : rest.reverse.find? (fun dev => dev.name == nm) with
    | some d₀ => simp [Option.or]
    | none =>
      cases hp : (dev.name == nm) <;> simp [List.find?, hp, Option.or]

/-- C4: a successful fetch is indexed by device name with the last record
winning on duplicate names (`devs.reverse.find?` picks the last matching
record in source order), and on the concrete fetch result
`[(name a, version 1.0), (name b, version 2.0)]` looking up `a` yields its
record while looking up `c` yields absent. -/
theorem update_data_indexes_by_name :
    (∀ (devs : List ConfiguredDevice) (nm : String),
        dictGet (async_update_data devs) nm =
          devs.reverse.find? (fun dev => dev.name == nm))
    ∧ get_device (some (async_update_data [⟨"a", "1.0"⟩, ⟨"b", "2.0"⟩]))
        (entryWithName "a") = Except.ok (some ⟨"a", "1.0"⟩)
    ∧ get_device (some (async_update_data [⟨"a", "1.0"⟩, ⟨"b", "2.0"⟩]))
        (entryWithName "c") = Except.ok none := by
  refine ⟨fun devs nm => ?_, rfl, rfl⟩
  have h := dictGet_foldl devs [] nm
  simpa [async_update_data, dictGet] using h

/-- C7: for every cache state and device name, `get_device` returns exactly
the record stored under that name in the current snapshot, and returns
absent exactly when no snapshot exists or the name is not a key of the
snapshot.  In the embedding `get_device` is a pure function of the stored
snapshot: it takes no scheduler step, touches no lock and triggers no
fetch. -/
theorem get_device_reads_snapshot (data : Option Snapshot) (nm : String) :
    get_device data (entryWithName nm) = Except.ok (data.bind (fun d => dictGet d nm))
    ∧ (get_device data (entryWithName nm) = Except.ok none ↔
        data = none ∨ ∃ d, data = some d ∧ dictGet d nm = none) := by
  have hval : get_device data (entryWithName nm) =
      Except.ok (data.bind (fun d => dictGet d nm)) := by
    cases data with
    | none => rfl
    | some d =>
      by_cases hd : d.isEmpty
      · rw [List.isEmpty_iff] at hd
        subst hd
        simp [get_device, entryWithName, dictGet]
      · simp [get_device, entryWithName, hd]
  refine ⟨hval, ?_⟩
  rw [hval]
  cases data with
  | none => simp
  | some d => simp [Except.ok.injEq, Option.bind]

/-- C8: whenever `get_device` returns absent for the entity's device, the
update entity reports itself unavailable (`available` is false, whatever
the framework-side `super().available` is) and exposes no latest version
(`latest_version` is absent); neither property raises in that case. -/
theorem entity_unavailable_when_device_absent (sup : Bool) (data : Option Snapshot)
    (entry_data : RuntimeEntryData)
    (habs : get_device data entry_data = Except.ok none) :
    ESPHomeUpdateEntity.available sup data entry_data = Except.ok false
    ∧ ESPHomeUpdateEntity.latest_version data entry_data = Except.ok none := by
  cases sup <;>
    simp [ESPHomeUpdateEntity.available, ESPHomeUpdateEntity.latest_version, habs,
      Except.map]

/-- Witness for `entity_unavailable_when_device_absent` at a concrete
input: no snapshot and a not-yet-connected device. -/
theorem entity_unavailable_when_device_absent_witness :
    get_device none ⟨none⟩ = Except.ok none
    ∧ (ESPHomeUpdateEntity.available true none ⟨none⟩ = Except.ok false
        ∧ ESPHomeUpdateEntity.latest_version none ⟨none⟩ = Except.ok none) :=
  ⟨rfl, entity_unavailable_when_device_absent true none ⟨none⟩ rfl⟩

/-- C9: a successful fetch returning an empty device list publishes an
empty snapshot (`data` becomes `some` of the empty dict, so a snapshot
exists), yet the public interface treats it like no snapshot at all: a
subsequent `ensure_data` call does not return immediately but becomes a new
leader and triggers a second fetch, and `get_device` returns absent for
every name, because both operations test `self.data` for truthiness
(emptiness), not for mere presence. -/
theorem empty_snapshot_treated_as_absent :
    (run (init 2) [Ev.start 0, Ev.fetchDone 0 (FetchResult.success [])]).map
        (fun s => (s.data, s.pcs[1]?)) = some (some [], some PC.ready)
    ∧ (run (init 2) [Ev.start 0, Ev.fetchDone 0 (FetchResult.success []), Ev.start 1]).map
        (fun s => (s.fetchCount, s.pcs[1]?, s.first_fetch_lock)) =
        some (2, some (PC.fetching 1), some 1)
    ∧ (∀ nm : String, get_device (some []) (entryWithName nm) = Except.ok none)
    ∧ truthy (some []) = false :=
  ⟨rfl, rfl, fun _ => rfl, rfl⟩

/-- C10: `get_device` has an unstated precondition on its argument.  When a
nonempty snapshot exists, a caller whose entry data lacks `device_info`, or
whose `device_info.name` is `None`, makes `get_device` fail an assertion
instead of returning absent; when no snapshot exists the truthiness check
returns absent before the assertions are reached. -/
theorem get_device_asserts_on_missing_identity (d : Snapshot)
    (hne : d.isEmpty = false) :
    get_device (some d) ⟨none⟩ = Except.error AssertionError.device_info_missing
    ∧ get_device (some d) ⟨some ⟨none⟩⟩ = Except.error AssertionError.name_missing
    ∧ get_device none ⟨none⟩ = Except.ok none
    ∧ get_device none ⟨some ⟨none⟩⟩ = Except.ok none := by
  simp [get_device, hne]

/-- Runs consisting only of `ensure_data` call starts over a truthy
snapshot change nothing but the callers' program counters. -/
theorem run_starts_populated {s₂ : SysState} {es : List Ev} :
    ∀ (s : SysState), run s es = some s₂ → truthy s.data = true →
      es.all isStart = true →
      s₂.data = s.data ∧ s₂.fetchCount = s.fetchCount ∧ s₂.locks = s.locks
      ∧ s₂.first_fetch_lock = s.first_fetch_lock := by
  induction es with
  | nil =>
    intro s hrun hpop hstarts
    simp only [run, Option.some.injEq] at hrun
    rw [← hrun]
    exact ⟨rfl, rfl, rfl, rfl⟩
  | cons e rest ih =>
    intro s hrun hpop hstarts
    rw [List.all_cons, Bool.and_eq_true] at hstarts
    obtain ⟨he, hrest⟩ := hstarts
    cases e with
    | fetchDone t r => simp [isStart] at he
    | wake t => simp [isStart] at he
    | start t =>
      simp only [run] at hrun
      cases hstep : step s (Ev.start t) with
      | none => rw [hstep] at hrun; exact Option.noConfusion hrun
      | some s₁ =>
        rw [hstep] at hrun
        simp only [Option.some_bind] at hrun
        obtain ⟨hpc, hcases⟩ := step_start_cases hstep
        rcases hcases with ⟨_, rfl⟩ | ⟨htr, _⟩
        · exact ih { s with pcs := s.pcs.set t PC.done } hrun hpop hrest
        · rw [hpop] at htr
          exact Bool.noConfusion htr

/-- C1: for N concurrent `ensure_data` calls all issued before the single
gate fetch completes, starting from a state with no snapshot and no fetch
in flight: exactly one fetch is invoked over the whole execution, no call
returns before a fetch has completed (in any fetch-free execution no task
is done), and in every reachable state at most one gate-triggered fetch is
in flight. -/
theorem ensure_data_coalesces (n : Nat) (es : List Ev) (s₂ : SysState)
    (hn : 1 ≤ n) (hrun : run (init n) es = some s₂) (hsf : startsFirst es = true)
    (hdone : ∀ t : Nat, t < n → s₂.pcs[t]? = some PC.done) :
    s₂.fetchCount = 1
    ∧ (∀ (es₁ : List Ev) (s₁ : SysState), es₁.all (fun e => !isFetchDone e) = true →
        run (init n) es₁ = some s₁ → ∀ t : Nat, ¬ s₁.pcs[t]? = some PC.done)
    ∧ (∀ (es₃ : List Ev) (s₃ : SysState), run (init n) es₃ = some s₃ →
        countFetching s₃ ≤ 1) := by
  have hnodone : ∀ (es₁ : List Ev) (s₁ : SysState),
      es₁.all (fun e => !isFetchDone e) = true →
      run (init n) es₁ = some s₁ → ∀ t : Nat, ¬ s₁.pcs[t]? = some PC.done :=
    fun es₁ s₁ hall hr => (preFetch_run hall hr (preFetch_init n)).2.2.1
  have hcount : ∀ (es₃ : List Ev) (s₃ : SysState), run (init n) es₃ = some s₃ →
      countFetching s₃ ≤ 1 :=
    fun es₃ s₃ hr => countFetching_le_one (inv_run (inv_init n) hr)
  refine ⟨?_, hnodone, hcount⟩
  rcases startsFirst_split hsf with hall | ⟨es₁, t, r, es₂, heq, h1, h2⟩
  · exact absurd (hdone 0 hn) (hnodone es s₂ hall hrun 0)
  · subst heq
    rw [run_append] at hrun
    cases hr1 : run (init n) es₁ with
    | none => rw [hr1] at hrun; exact Option.noConfusion hrun
    | some s₁ =>
      rw [hr1] at hrun
      simp only [Option.some_bind, run] at hrun
      cases hstep : step s₁ (Ev.fetchDone t r) with
      | none => rw [hstep] at hrun; exact Option.noConfusion hrun
      | some sm =>
        rw [hstep] at hrun
        simp only [Option.some_bind] at hrun
        have hpre : preFetch s₁ := preFetch_run h1 hr1 (preFetch_init n)
        have hinv₁ : Inv s₁ := inv_run (inv_init n) hr1
        obtain ⟨g, lk, hpcf, hlkf, hsm⟩ := step_fetchDone_cases hstep
        have hgate : s₁.first_fetch_lock = some g := hinv₁.fetcherGate t g hpcf
        have hc₁ : s₁.fetchCount = 1 := by
          have hc := hpre.2.2.2
          rw [hgate] at hc
          simpa using hc
        have hcm : sm.fetchCount = 1 := by
          rw [hsm]
          exact hc₁
        rw [run_fetchCount_of_no_start h2 hrun, hcm]

/-- Witness for `ensure_data_coalesces`: two concurrent calls, one fetch
returning one device, the waiter woken afterwards. -/
theorem ensure_data_coalesces_witness :
    (⟨some [("dev1", ⟨"dev1", "1.0"⟩)], none, [⟨false, []⟩], [PC.done, PC.done], 1⟩ :
        SysState).fetchCount = 1
    ∧ (∀ (es₁ : List Ev) (s₁ : SysState), es₁.all (fun e => !isFetchDone e) = true →
        run (init 2) es₁ = some s₁ → ∀ t : Nat, ¬ s₁.pcs[t]? = some PC.done)
    ∧ (∀ (es₃ : List Ev) (s₃ : SysState), run (init 2) es₃ = some s₃ →
        countFetching s₃ ≤ 1) :=
  ensure_data_coalesces 2
    [Ev.start 0, Ev.start 1, Ev.fetchDone 0 (FetchResult.success [⟨"dev1", "1.0"⟩]),
      Ev.wake 1]
    ⟨some [("dev1", ⟨"dev1", "1.0"⟩)], none, [⟨false, []⟩], [PC.done, PC.done], 1⟩
    (by omega) (by decide) (by decide) (by intro t ht; interval_cases t <;> decide)

/-- C2 counterexample: after a successful refresh that published an empty
snapshot (`data.isSome`, so a snapshot exists), a further `ensure_data`
call does not return immediately and triggers a second fetch, refuting the
claim for the empty-snapshot state. -/
theorem ensure_data_refetches_after_empty_publish :
    (run (init 2) [Ev.start 0, Ev.fetchDone 0 (FetchResult.success []), Ev.start 1]).map
        (fun s => (s.data.isSome, s.fetchCount, s.pcs[1]?)) =
      some (true, 2, some (PC.fetching 1)) := rfl

/-- C2 (amended): in every cache state whose snapshot exists and is
nonempty, each `ensure_data` call returns immediately in a single step
(its task goes straight to done, no lock is touched), and any number of
such calls leaves data, locks, gate and fetch counter unchanged: zero
fetch invocations. -/
theorem ensure_data_noop_when_populated (s s₂ : SysState) (es : List Ev)
    (hpop : truthy s.data = true)
    (hstarts : es.all isStart = true)
    (hrun : run s es = some s₂) :
    (∀ t : Nat, s.pcs[t]? = some PC.ready →
        step s (Ev.start t) = some { s with pcs := s.pcs.set t PC.done })
    ∧ s₂.data = s.data ∧ s₂.fetchCount = s.fetchCount ∧ s₂.locks = s.locks
    ∧ s₂.first_fetch_lock = s.first_fetch_lock := by
  refine ⟨?_, run_starts_populated s hrun hpop hstarts⟩
  intro t hpc
  simp only [step, hpc]
  rw [if_pos hpop]

/-- Witness for `ensure_data_noop_when_populated`: two calls over a
populated snapshot finish without any fetch. -/
theorem ensure_data_noop_when_populated_witness :
    (∀ t : Nat,
        (⟨some [("a", ⟨"a", "1.0"⟩)], none, [], [PC.ready, PC.ready], 0⟩ :
            SysState).pcs[t]? = some PC.ready →
        step (⟨some [("a", ⟨"a", "1.0"⟩)], none, [], [PC.ready, PC.ready], 0⟩ : SysState)
            (Ev.start t) =
          some { (⟨some [("a", ⟨"a", "1.0"⟩)], none, [], [PC.ready, PC.ready], 0⟩ :
              SysState) with
            pcs := (⟨some [("a", ⟨"a", "1.0"⟩)], none, [], [PC.ready, PC.ready], 0⟩ :
              SysState).pcs.set t PC.done })
    ∧ (⟨some [("a", ⟨"a", "1.0"⟩)], none, [], [PC.done, PC.done], 0⟩ :
          SysState).data =
        (⟨some [("a", ⟨"a", "1.0"⟩)], none, [], [PC.ready, PC.ready], 0⟩ :
          SysState).data
    ∧ (⟨some [("a", ⟨"a", "1.0"⟩)], none, [], [PC.done, PC.done], 0⟩ :
          SysState).fetchCount =
        (⟨some [("a", ⟨"a", "1.0"⟩)], none, [], [PC.ready, PC.ready], 0⟩ :
          SysState).fetchCount
    ∧ (⟨some [("a", ⟨"a", "1.0"⟩)], none, [], [PC.done, PC.done], 0⟩ :
          SysState).locks =
        (⟨some [("a", ⟨"a", "1.0"⟩)], none, [], [PC.ready, PC.ready], 0⟩ :
          SysState).locks
    ∧ (⟨some [("a", ⟨"a", "1.0"⟩)], none, [], [PC.done, PC.done], 0⟩ :
          SysState).first_fetch_lock =
        (⟨some [("a", ⟨"a", "1.0"⟩)], none, [], [PC.ready, PC.ready], 0⟩ :
          SysState).first_fetch_lock :=
  ensure_data_noop_when_populated
    ⟨some [("a", ⟨"a", "1.0"⟩)], none, [], [PC.ready, PC.ready], 0⟩
    ⟨some [("a", ⟨"a", "1.0"⟩)], none, [], [PC.done, PC.done], 0⟩
    [Ev.start 0, Ev.start 1] rfl rfl (by decide)

/-- C3: when a gate-triggered fetch fails, the leader resets
`_first_fetch_lock` to `None` (the gate returns to idle); a subsequent
`ensure_data` call made afterwards with the snapshot still absent becomes
the new sole fetcher: it creates a fresh lock, holds the gate, and
triggers exactly one new fetch, with at most one fetch in flight. -/
theorem ensure_data_retries_after_failure (n : Nat) (es : List Ev) (s s₂ : SysState)
    (t u : Nat)
    (hrun : run (init n) es = some s)
    (hfail : step s (Ev.fetchDone t FetchResult.failure) = some s₂)
    (habs : s₂.data = none)
    (hready : s₂.pcs[u]? = some PC.ready) :
    s₂.first_fetch_lock = none
    ∧ ∃ s₃ : SysState, step s₂ (Ev.start u) = some s₃
        ∧ s₃.fetchCount = s₂.fetchCount + 1
        ∧ s₃.pcs[u]? = some (PC.fetching s₂.locks.length)
        ∧ s₃.first_fetch_lock = some s₂.locks.length
        ∧ countFetching s₃ ≤ 1 := by
  have hinv₂ : Inv s₂ := inv_step (inv_run (inv_init n) hrun) hfail
  obtain ⟨g, lk, hpcf, hlkf, rfl⟩ := step_fetchDone_cases hfail
  refine ⟨rfl, ?_⟩
  have htr : truthy ({ s with
      data := applyRefresh s.data FetchResult.failure,
      locks := s.locks.set g { lk with locked := false },
      first_fetch_lock := none,
      pcs := s.pcs.set t PC.done } : SysState).data = false := by
    rw [habs]
    rfl
  have hstep₃ : step ({ s with
      data := applyRefresh s.data FetchResult.failure,
      locks := s.locks.set g { lk with locked := false },
      first_fetch_lock := none,
      pcs := s.pcs.set t PC.done } : SysState) (Ev.start u) = some
      { s with
        data := applyRefresh s.data FetchResult.failure,
        locks := (s.locks.set g { lk with locked := false })
          ++ [{ locked := true, waiters := [] }],
        first_fetch_lock := some (s.locks.set g { lk with locked := false }).length,
        pcs := (s.pcs.set t PC.done).set u
          (PC.fetching (s.locks.set g { lk with locked := false }).length),
        fetchCount := s.fetchCount + 1 } := by
    simp only [step, hready, htr, Bool.false_eq_true, if_false]
  have hulen : u < (s.pcs.set t PC.done).length := lt_length_of_lookup hready
  refine ⟨_, hstep₃, rfl, ?_, rfl, ?_⟩
  · exact List.getElem?_set_self hulen
  · exact countFetching_le_one (inv_step hinv₂ hstep₃)

/-- Witness for `ensure_data_retries_after_failure`: the first caller's
fetch fails, the second caller refetches. -/
theorem ensure_data_retries_after_failure_witness :
    (⟨none, none, [⟨false, []⟩], [PC.done, PC.ready], 1⟩ : SysState).first_fetch_lock = none
    ∧ ∃ s₃ : SysState,
        step (⟨none, none, [⟨false, []⟩], [PC.done, PC.ready], 1⟩ : SysState)
            (Ev.start 1) = some s₃
        ∧ s₃.fetchCount =
            (⟨none, none, [⟨false, []⟩], [PC.done, PC.ready], 1⟩ : SysState).fetchCount + 1
        ∧ s₃.pcs[1]? = some (PC.fetching
            (⟨none, none, [⟨false, []⟩], [PC.done, PC.ready], 1⟩ : SysState).locks.length)
        ∧ s₃.first_fetch_lock = some
            (⟨none, none, [⟨false, []⟩], [PC.done, PC.ready], 1⟩ : SysState).locks.length
        ∧ countFetching s₃ ≤ 1 :=
  ensure_data_retries_after_failure 2 [Ev.start 0]
    ⟨none, some 0, [⟨true, []⟩], [PC.fetching 0, PC.ready], 1⟩
    ⟨none, none, [⟨false, []⟩], [PC.done, PC.ready], 1⟩
    0 1 (by decide) (by decide) rfl (by decide)

/-- C5: if a refresh's fetch fails, the stored snapshot is untouched:
`currentSnapshot` after the failed refresh equals `currentSnapshot` before
it (the failure path retains stale data wholesale). -/
theorem failed_refresh_retains_snapshot (s s₂ : SysState) (t : Nat)
    (_hpop : truthy s.data = true)
    (hstep : step s (Ev.fetchDone t FetchResult.failure) = some s₂) :
    currentSnapshot s₂ = currentSnapshot s := by
  obtain ⟨g, lk, _, _, rfl⟩ := step_fetchDone_cases hstep
  rfl

/-- Witness for `failed_refresh_retains_snapshot` on a populated cache. -/
theorem failed_refresh_retains_snapshot_witness :
    truthy (⟨some [("a", ⟨"a", "1.0"⟩)], some 0, [⟨true, []⟩], [PC.fetching 0], 1⟩ :
        SysState).data = true
    ∧ currentSnapshot
        (⟨some [("a", ⟨"a", "1.0"⟩)], none, [⟨false, []⟩], [PC.done], 1⟩ : SysState) =
      currentSnapshot
        (⟨some [("a", ⟨"a", "1.0"⟩)], some 0, [⟨true, []⟩], [PC.fetching 0], 1⟩ :
          SysState) :=
  ⟨rfl, failed_refresh_retains_snapshot
    ⟨some [("a", ⟨"a", "1.0"⟩)], some 0, [⟨true, []⟩], [PC.fetching 0], 1⟩
    ⟨some [("a", ⟨"a", "1.0"⟩)], none, [⟨false, []⟩], [PC.done], 1⟩
    0 rfl (by decide)⟩

/-- C6: `ensure_data` always terminates normally, whatever the fetch
outcomes: every valid execution is finite (at most two events per call),
and a state from which no event is enabled has every call returned.  In the
embedding `ensure_data` has no failure outcome at all: fetch failures only
leave `data` absent or stale (`applyRefresh`), they never propagate to the
callers. -/
theorem ensure_data_always_terminates (n : Nat) (es : List Ev) (s₂ : SysState)
    (hrun : run (init n) es = some s₂) :
    es.length ≤ 2 * n
    ∧ (allDone s₂ ∨ ∃ (e : Ev) (s₃ : SysState), step s₂ e = some s₃) := by
  constructor
  · have h := run_length_le hrun
    rw [sysMeasure_init] at h
    omega
  · by_cases hd : allDone s₂
    · exact Or.inl hd
    · right
      unfold allDone at hd
      push_neg at hd
      obtain ⟨t, pc, hp, hne⟩ := hd
      exact progress (inv_run (inv_init n) hrun) hp hne

/-- Witness for `ensure_data_always_terminates`: a single call whose fetch
fails still terminates. -/
theorem ensure_data_always_terminates_witness :
    ([Ev.start 0, Ev.fetchDone 0 FetchResult.failure] : List Ev).length ≤ 2 * 1
    ∧ (allDone (⟨none, none, [⟨false, []⟩], [PC.done], 1⟩ : SysState)
        ∨ ∃ (e : Ev) (s₃ : SysState),
            step (⟨none, none, [⟨false, []⟩], [PC.done], 1⟩ : SysState) e = some s₃) :=
  ensure_data_always_terminates 1 [Ev.start 0, Ev.fetchDone 0 FetchResult.failure]
    ⟨none, none, [⟨false, []⟩], [PC.done], 1⟩ (by decide)

/-- Witness for `get_device_asserts_on_missing_identity` at a concrete
nonempty snapshot. -/
theorem get_device_asserts_on_missing_identity_witness :
    ([("a", (⟨"a", "1.0"⟩ : ConfiguredDevice))] : Snapshot).isEmpty = false
    ∧ (get_device (some [("a", (⟨"a", "1.0"⟩ : ConfiguredDevice))]) ⟨none⟩ =
          Except.error AssertionError.device_info_missing
        ∧ get_device (some [("a", (⟨"a", "1.0"⟩ : ConfiguredDevice))]) ⟨some ⟨none⟩⟩ =
          Except.error AssertionError.name_missing
        ∧ get_device none ⟨none⟩ = Except.ok none
        ∧ get_device none ⟨some ⟨none⟩⟩ = Except.ok none) :=
  ⟨rfl, get_device_asserts_on_missing_identity [("a", ⟨"a", "1.0"⟩)] rfl⟩

end ESPHome
